import Mathlib

/-!
Verification of the Strawberry `OrganizeFormat` core
(`src/organize/organizeformat.cpp`).

Strings are modelled as `List Char` (Qt `QString`).  The metadata record
(`Song`), the external collaborators (transliteration, Unicode
decomposition) and the character-set constants that live in headers
outside the provided sources (`filenameconstants.h`) are modelled from
the specification as explicit parameters collected in `Env`.
-/

namespace Organize

/-- Whitespace test modelling `QChar::isSpace` and the regex class
applied by the code; the ASCII whitespace characters are used for both,
as both Qt notions agree on them. -/
def isWs (c : Char) : Bool :=
  c = ' ' ∨ c = '\t' ∨ c = '\n' ∨ c = '\x0b' ∨ c = '\x0c' ∨ c = '\r'

/-- Left trim: drop leading whitespace. -/
def ltrim (s : List Char) : List Char := s.dropWhile isWs

/-- Model of `QString::trimmed`: whitespace removed from both ends. -/
def trim (s : List Char) : List Char :=
  ((s.dropWhile isWs).reverse.dropWhile isWs).reverse

/-- Model of `QString::simplified`: leading/trailing whitespace removed
and every interior run of whitespace replaced by a single space. -/
def simplified (s : List Char) : List Char :=
  List.intercalate [' '] ((s.splitOnP isWs).filter (fun w => ¬ w = []))

/-- ASCII letter test for the tag pattern character class of
`kTagPattern = "\x5c%([a-zA-Z]*)"`. -/
def isTagLetter (c : Char) : Bool :=
  ('a' ≤ c ∧ c ≤ 'z') ∨ ('A' ≤ c ∧ c ≤ 'Z')

/-- Length of the maximal leading run of tag letters. -/
def letterRun : List Char → Nat
  | [] => 0
  | c :: r => if isTagLetter c then letterRun r + 1 else 0

/-- Brace test for the section pattern `kBlockPattern = "\x5c\x7b([^\x7b\x7d]+)\x7d"`. -/
def isBrace (c : Char) : Bool := c = '{' ∨ c = '}'

/-- Length of the maximal leading run of non-brace characters. -/
def braceFreeRun : List Char → Nat
  | [] => 0
  | c :: r => if isBrace c then 0 else braceFreeRun r + 1

/-- Model of `QString::replace(pos, n, value)`: replace `n` characters
starting at `pos` by `value`. -/
def replaceAt (s : List Char) (pos n : Nat) (value : List Char) : List Char :=
  s.take pos ++ value ++ s.drop (pos + n)

/-- The metadata record ("Song"), an external read-only entity; its
accessors (including the `effective_*` combinations and the base
filename) are modelled as fields, and the source locator is kept as the
local-file path string from which the `extension` tag reads a suffix. -/
structure Song where
  title : List Char
  album : List Char
  artist : List Char
  composer : List Char
  performer : List Char
  grouping : List Char
  lyrics : List Char
  genre : List Char
  comment : List Char
  year : Int
  effective_originalyear : Int
  track : Int
  disc : Int
  length_nanosec : Int
  bitrate : Int
  samplerate : Int
  bitdepth : Int
  is_compilation : Bool
  effective_albumartist : List Char
  basefilename : List Char
  url_local : List Char

/-- The render configuration switches of `OrganizeFormat`. -/
structure RenderCfg where
  remove_problematic : Bool
  remove_non_fat : Bool
  remove_non_ascii : Bool
  allow_ascii_ext : Bool
  replace_spaces : Bool

/-- Modelled from the spec: the external collaborators and the
character-set constants declared in `utilities/filenameconstants.h` and
`utilities/transliterate.h`, which are not among the provided sources.
`translit` is the best-effort ASCII-folding service, `decomp` the
Unicode canonical-decomposition accessor `QChar::decomposition`,
`problematic` the set of `kProblematicCharactersRegex`, `invalidFat`
the set of `kInvalidFatCharactersRegex` and `invalidDir` the
invalid-path-character set of `kInvalidDirCharactersRegex`. -/
structure Env where
  translit : List Char → List Char
  decomp : Char → List Char
  problematic : Char → Bool
  invalidFat : Char → Bool
  invalidDir : Char → Bool

/-- Base-10 rendering of an integer, modelling `QString::number`. -/
def intStr (n : Int) : List Char := (toString n).toList

/-- Model of `QFileInfo::fileName`: the part after the last `/`. -/
def fileNameOf (p : List Char) : List Char :=
  (p.reverse.takeWhile (fun c => ¬ c = '/')).reverse

/-- Model of `QFileInfo::path`: the part before the last `/`; `"."`
when there is no separator and `"/"` when the separator is leading
(behaviour of `QFileSystemEntry::path`). -/
def pathOf (p : List Char) : List Char :=
  let rest := p.reverse.dropWhile (fun c => ¬ c = '/')
  if rest = [] then ['.']
  else
    let d := (rest.drop 1).reverse
    if d = [] then ['/'] else d

/-- Model of `QFileInfo::suffix`: the part of the file name after the
last `.`, empty when the file name has no dot. -/
def suffixOfPath (p : List Char) : List Char :=
  let f := fileNameOf p
  let r := f.reverse.takeWhile (fun c => ¬ c = '.')
  if r.length = f.length then [] else r.reverse

/-- Model of `QFileInfo::completeBaseName`: the file name up to the
last `.`, the whole file name when it has no dot. -/
def completeBaseName (p : List Char) : List Char :=
  let f := fileNameOf p
  let r := f.reverse.takeWhile (fun c => ¬ c = '.')
  if r.length = f.length then f else (f.reverse.drop (r.length + 1)).reverse

/-- Model of `QString::section('/', 0, -2)`: all `/`-separated fields
but the last, rejoined with `/`. -/
def dirPortion (p : List Char) : List Char :=
  List.intercalate ['/'] (p.splitOn '/').dropLast

/-- Nanoseconds per second (`kNsecPerSec` from `timeconstants.h`,
modelled from the spec: duration is divided, truncating, by this). -/
def kNsecPerSec : Int := 1000000000

/-- Upper-casing of a character, modelling `QChar::toUpper` on the
ASCII range. -/
def qToUpper (c : Char) : Char := c.toUpper

/-- Case-insensitive match of the letters `t`, `h`, `e` used by the
regex `^the\s+` of the `artistinitial` tag. -/
def isTheWord (t h e : Char) : Bool :=
  (t = 't' ∨ t = 'T') ∧ (h = 'h' ∨ h = 'H') ∧ (e = 'e' ∨ e = 'E')

/-- Removal of the leading case-insensitive `the` plus following
whitespace (`value.remove(QRegularExpression("^the\s+"))`); the greedy
`\s+` consumes the maximal whitespace run. -/
def stripLeadingThe (v : List Char) : List Char :=
  match v with
  | t :: h :: e :: c :: rest =>
      if isTheWord t h e ∧ isWs c then (c :: rest).dropWhile isWs
      else v
  | _ => v

/-- The `artistinitial` computation with the indexing step `value[0]`
made explicit: `none` models an out-of-range index (the code indexes
only after checking the pre-strip value is nonempty; the stripped value
staying nonempty is proved below). -/
def artistInitialRaw (v : List Char) : Option (List Char) :=
  let w := trim v
  if w = [] then some w
  else
    match (stripLeadingThe w).head? with
    | some c => some [qToUpper c]
    | none => none

/-- Total `artistinitial` value, the out-of-range branch collapsed to
the empty string. -/
def artistInitialVal (v : List Char) : List Char :=
  (artistInitialRaw v).getD []

/-- Literal used by the `albumartist` tag. -/
def variousArtists : List Char := "Various Artists".toList

/-- The tag-name dispatch of `OrganizeFormat::TagValue` before the
shared suppression/cleanup steps; an unmatched name falls through to
the empty string. -/
def tagValueCore (song : Song) (tag : List Char) : List Char :=
  if tag = "title".toList then song.title
  else if tag = "album".toList then song.album
  else if tag = "artist".toList then song.artist
  else if tag = "composer".toList then song.composer
  else if tag = "performer".toList then song.performer
  else if tag = "grouping".toList then song.grouping
  else if tag = "lyrics".toList then song.lyrics
  else if tag = "genre".toList then song.genre
  else if tag = "comment".toList then song.comment
  else if tag = "year".toList then intStr song.year
  else if tag = "originalyear".toList then intStr song.effective_originalyear
  else if tag = "track".toList then intStr song.track
  else if tag = "disc".toList then intStr song.disc
  else if tag = "length".toList then intStr (Int.tdiv song.length_nanosec kNsecPerSec)
  else if tag = "bitrate".toList then intStr song.bitrate
  else if tag = "samplerate".toList then intStr song.samplerate
  else if tag = "bitdepth".toList then intStr song.bitdepth
  else if tag = "extension".toList then suffixOfPath song.url_local
  else if tag = "artistinitial".toList then artistInitialVal song.effective_albumartist
  else if tag = "albumartist".toList then
    (if song.is_compilation then variousArtists else song.effective_albumartist)
  else []

/-- Sentinel suppression: a resolved value equal to `"0"` or `"-1"`
is replaced by the empty string. -/
def sentinelSuppress (v : List Char) : List Char :=
  if v = ['0'] ∨ v = ['-', '1'] then [] else v

/-- Full `OrganizeFormat::TagValue`: dispatch, sentinel suppression,
track zero-padding, invalid-path-character removal, optional removal of
dots, and a final trim. -/
def tagValue (env : Env) (cfg : RenderCfg) (song : Song) (tag : List Char) : List Char :=
  let v0 := tagValueCore song tag
  let v1 := sentinelSuppress v0
  let v2 := if tag = "track".toList ∧ v1.length = 1 then '0' :: v1 else v1
  let v3 := v2.filter (fun c => !(env.invalidDir c))
  let v4 := if cfg.remove_problematic then v3.filter (fun c => !(c == '.')) else v3
  trim v4

/-- Index of the first occurrence of a character in a list. -/
def scanFor (c : Char) : List Char → Option Nat
  | [] => none
  | a :: r => if a = c then some 0 else (scanFor c r).map (fun j => j + 1)

/-- Leftmost match of the tag pattern at or after `pos`: the regex
`\x5c%([a-zA-Z]*)` matches at every `%`, so the match position is the
first `%` at index at least `pos` (`QRegularExpression::match(s, pos)`
only finds matches starting at or after the offset). -/
def findTag (s : List Char) (pos : Nat) : Option Nat :=
  (scanFor '%' (s.drop pos)).map (fun j => j + pos)

/-- Match of the section pattern `\x5c\x7b([^\x7b\x7d]+)\x7d` anchored at
index `i`: an opening brace, a nonempty maximal run of `k` non-brace
characters, and a closing brace; returns the content length `k`. -/
def isSectionAt (s : List Char) (i : Nat) : Option Nat :=
  if s[i]? = some '{' then
    let k := braceFreeRun (s.drop (i + 1))
    if 1 ≤ k ∧ s[i + 1 + k]? = some '}' then some k else none
  else none

/-- Bounded scan for the leftmost section match at or after `pos`. -/
def findSectionAux (s : List Char) : Nat → Nat → Option (Nat × Nat)
  | _, 0 => none
  | pos, Nat.succ b =>
    match isSectionAt s pos with
    | some k => some (pos, k)
    | none => findSectionAux s (pos + 1) b

/-- Leftmost match of the section pattern at or after `pos`. -/
def findSection (s : List Char) (pos : Nat) : Option (Nat × Nat) :=
  findSectionAux s pos (s.length - pos)

/-- The unique-tag set `kUniqueTags`. -/
def isUniqueTag (tag : List Char) : Bool :=
  tag = "title".toList ∨ tag = "track".toList

/-- One pass of the tag-replacement loop of `OrganizeFormat::ParseBlock`
(fuelled; the wrapper below supplies provably sufficient fuel).  State:
current buffer, scan position, accumulated `have_tagdata` flag and the
level's `empty` flag. -/
def tagLoopF (env : Env) (cfg : RenderCfg) (song : Song) :
    Nat → List Char → Nat → Bool → Bool → List Char × Bool × Bool
  | 0, s, _, u, e => (s, u, e)
  | Nat.succ f, s, pos, u, e =>
    match findTag s pos with
    | none => (s, u, e)
    | some i =>
      let L := letterRun (s.drop (i + 1))
      let tag := (s.drop (i + 1)).take L
      let value := tagValue env cfg song tag
      let e' := if value = [] then true else e
      let u' := if ¬ value = [] ∧ isUniqueTag tag then true else u
      tagLoopF env cfg song f (replaceAt s i (1 + L) value) (i + value.length) u' e'

mutual

/-- `OrganizeFormat::ParseBlock` (fuelled): the section pass followed by
the tag pass; returns the substituted text, the accumulated
`have_tagdata` flag, and this level's `any_empty` flag. -/
def parseBlockF (env : Env) (cfg : RenderCfg) (song : Song) :
    Nat → List Char → Bool → List Char × Bool × Bool
  | 0, s, u => (s, u, false)
  | Nat.succ f, s, u =>
    let r := sectionLoopF env cfg song f s 0 u
    tagLoopF env cfg song (r.1.length + 1) r.1 0 r.2 false

/-- The section-replacement loop of `OrganizeFormat::ParseBlock`
(fuelled): find the leftmost section match at or after `pos`,
recursively parse its content, collapse it to the empty string when the
recursive level reported `empty`, substitute, and resume scanning at
the end of the substituted value. -/
def sectionLoopF (env : Env) (cfg : RenderCfg) (song : Song) :
    Nat → List Char → Nat → Bool → List Char × Bool
  | 0, s, _, u => (s, u)
  | Nat.succ f, s, pos, u =>
    match findSection s pos with
    | none => (s, u)
    | some (i, k) =>
      let content := (s.drop (i + 1)).take k
      let r := parseBlockF env cfg song f content u
      let value := if r.2.2 then [] else r.1
      sectionLoopF env cfg song f (replaceAt s i (k + 2) value) (i + value.length) r.2.1

end

/-- `OrganizeFormat::ParseBlock` with sufficient fuel (sufficiency is
proved by the fuel-independence theorems below). -/
def parseBlock (env : Env) (cfg : RenderCfg) (song : Song)
    (block : List Char) (u : Bool) : List Char × Bool × Bool :=
  parseBlockF env cfg song (block.length + 2) block u

/-- The invalid-prefix character set (`kInvalidPrefixCharacters`);
the header is not among the provided sources, and the source comment
"Fix any parts of the path that start with dots" fixes it to the dot. -/
def kInvalidPrefixCharacters : List Char := ['.']

/-- Per-segment prefix strip: the inner loop over
`kInvalidPrefixCharacters` removes one leading character and breaks as
soon as one set character matches the segment start. -/
def stripOneInvalid (part : List Char) : List Char :=
  match kInvalidPrefixCharacters.find? (fun c => part.head? = some c) with
  | some _ => part.drop 1
  | none => part

/-- Per-segment cleanup body: strip one leading invalid-prefix
character when present, then trim the segment. -/
def cleanSegment (part : List Char) : List Char :=
  trim (stripOneInvalid part)

/-- The per-segment prefix-cleanup stage: split on `/`, clean each
segment, rejoin with `/`. -/
def perSegmentCleanup (p : List Char) : List Char :=
  List.intercalate ['/'] ((p.splitOn '/').map cleanSegment)

/-- The ASCII-range filtering stage: each character below the threshold
(128, or 255 when extended ASCII is allowed) is kept; others are
replaced by the first character of their Unicode decomposition when
that is below the threshold, else dropped. -/
def asciiStrip (env : Env) (cfg : RenderCfg) (p : List Char) : List Char :=
  let ascii : Nat := if cfg.allow_ascii_ext then 255 else 128
  p.flatMap (fun c =>
    if c.toNat < ascii then [c]
    else
      match (env.decomp c).head? with
      | some d => if d.toNat < ascii then [d] else []
      | none => [])

/-- Sanitization stages 1-5: problematic-character removal,
transliteration, FAT-character removal, ASCII filtering and whitespace
simplification, in the fixed order of `GetFilenameForSong`. -/
def sanitizeStages (env : Env) (cfg : RenderCfg) (p : List Char) : List Char :=
  let p1 := if cfg.remove_problematic then p.filter (fun c => !(env.problematic c)) else p
  let p2 := if cfg.remove_non_fat ∨ (cfg.remove_non_ascii ∧ ¬ cfg.allow_ascii_ext)
            then env.translit p1 else p1
  let p3 := if cfg.remove_non_fat then p2.filter (fun c => !(env.invalidFat c)) else p2
  let p4 := if cfg.remove_non_ascii then asciiStrip env cfg p3 else p3
  simplified p4

/-- Extension determination of the fixup stage: the caller-supplied
extension when nonempty, else the suffix of the (stage-5) path, else
the suffix of the record's source file. -/
def determineExtn (song : Song) (extension s5 : List Char) : List Char :=
  if extension = [] then
    (if suffixOfPath s5 = [] then suffixOfPath song.url_local else suffixOfPath s5)
  else extension

/-- Reassembly of the fixup stage: directory part (unless empty or
`"."`) plus `/` plus the complete base name, the extension held aside. -/
def reassemble (s5 : List Char) : List Char :=
  (if ¬ pathOf s5 = [] ∧ ¬ pathOf s5 = ['.'] then pathOf s5 ++ ['/'] else [])
    ++ completeBaseName s5

/-- The full sanitization pipeline of `GetFilenameForSong` (lines
119-193): character stages, extension fixup, per-segment prefix
cleanup, whitespace-to-underscore substitution and extension append. -/
def sanitize (env : Env) (cfg : RenderCfg) (song : Song)
    (extension p : List Char) : List Char :=
  let s5 := sanitizeStages env cfg p
  let ext := determineExtn song extension s5
  let f2 := reassemble s5
  let f3 := perSegmentCleanup f2
  let f4 := if cfg.replace_spaces then f3.map (fun c => if isWs c then '_' else c) else f3
  if ¬ ext = [] then f4 ++ '.' :: ext else f4

/-- The candidate path before the validity check: the parsed template,
with the record's base filename substituted when the parse is empty,
and the base filename re-attached when the complete base name of the
candidate is empty (lines 89-113). -/
def candidatePath (env : Env) (cfg : RenderCfg) (fmt : List Char) (song : Song) : List Char :=
  let fp0 := (parseBlock env cfg song fmt false).1
  let fp1 := if fp0 = [] then song.basefilename else fp0
  if completeBaseName fp1 = [] then
    let path := pathOf fp1
    (if path = [] then []
     else path ++ (if path.getLast? = some '/' then [] else ['/'])) ++ song.basefilename
  else fp1

/-- The unique-filename flag produced by the parse of the template. -/
def uniqueFlag (env : Env) (cfg : RenderCfg) (fmt : List Char) (song : Song) : Bool :=
  (parseBlock env cfg song fmt false).2.1

/-- `OrganizeFormat::GetFilenameForSong`.  The result type
`Option (List Char × Bool)` is modelled from the spec: the rejected
outcome is a distinguishable sentinel (`none`), the success carries the
sanitized path and the uniqueness flag (the result class is declared in
a header outside the provided sources). -/
def getFilenameForSong (env : Env) (cfg : RenderCfg) (fmt : List Char)
    (song : Song) (extension : List Char) : Option (List Char × Bool) :=
  let fp := candidatePath env cfg fmt song
  if fp = [] ∨ (fp.contains '/' ∧ dirPortion fp = []) then none
  else some (sanitize env cfg song extension fp, uniqueFlag env cfg fmt song)

/-- The `OrganizeFormat` object state: the stored template and the
five configuration switches, with the constructor defaults of lines
66-72. -/
structure OrganizeFormat where
  format_ : List Char
  remove_problematic_ : Bool
  remove_non_fat_ : Bool
  remove_non_ascii_ : Bool
  allow_ascii_ext_ : Bool
  replace_spaces_ : Bool

/-- The `OrganizeFormat(const QString &format)` constructor: the
template is stored verbatim. -/
def OrganizeFormat.ofFormat (format : List Char) : OrganizeFormat :=
  { format_ := format, remove_problematic_ := false, remove_non_fat_ := false,
    remove_non_ascii_ := false, allow_ascii_ext_ := false, replace_spaces_ := true }

/-- `OrganizeFormat::set_format`: the supplied template is stored with
every backslash replaced by a forward slash. -/
def OrganizeFormat.setFormat (o : OrganizeFormat) (v : List Char) : OrganizeFormat :=
  { o with format_ := v.map (fun c => if c = '\\' then '/' else c) }

/-! ### Concrete instances used for evaluations -/

/-- A concrete environment: identity transliteration, no
decompositions, empty problematic and FAT sets, and the path
separators as the invalid-path-character set. -/
def envStd : Env :=
  { translit := id, decomp := fun _ => [], problematic := fun _ => false,
    invalidFat := fun _ => false,
    invalidDir := fun c => c = '/' ∨ c = '\\' }

/-- The configuration with the constructor defaults of
`OrganizeFormat` (only `replace_spaces_` set). -/
def cfgStd : RenderCfg :=
  { remove_problematic := false, remove_non_fat := false,
    remove_non_ascii := false, allow_ascii_ext := false, replace_spaces := true }

/-- A record with every field empty or zero. -/
def songEmpty : Song :=
  { title := [], album := [], artist := [], composer := [],
    performer := [], grouping := [], lyrics := [], genre := [], comment := [],
    year := 0, effective_originalyear := 0, track := 0, disc := 0,
    length_nanosec := 0, bitrate := 0, samplerate := 0, bitdepth := 0,
    is_compilation := false, effective_albumartist := [],
    basefilename := "base".toList, url_local := [] }

/-- The record of the nested-section example: album `X`, year `0`. -/
def songAlbumX : Song := { songEmpty with album := "X".toList }

/-- The nested-section template of the spec example. -/
def tmplNested : List Char := "\x7b%album (\x7b%year\x7d)\x7d".toList

/-! ### Scanner and buffer lemmas -/

theorem letterRun_le (s : List Char) : letterRun s ≤ s.length := by
  induction s with
  | nil => simp [letterRun]
  | cons c r ih =>
    simp only [letterRun, List.length_cons]
    split <;> omega

theorem braceFreeRun_le (s : List Char) : braceFreeRun s ≤ s.length := by
  induction s with
  | nil => simp [braceFreeRun]
  | cons c r ih =>
    simp only [braceFreeRun, List.length_cons]
    split <;> omega

theorem scanFor_eq_some {c : Char} {s : List Char} {j : Nat}
    (h : scanFor c s = some j) : s[j]? = some c := by
  induction s generalizing j with
  | nil => simp [scanFor] at h
  | cons a r ih =>
    simp only [scanFor] at h
    split at h
    · rename_i hac
      cases h
      simp [hac]
    · cases hr : scanFor c r with
      | none => rw [hr] at h; simp at h
      | some j' =>
        rw [hr] at h
        simp only [Option.map_some'] at h
        cases h
        simpa using ih hr

theorem scanFor_min {c : Char} {s : List Char} {j : Nat}
    (h : scanFor c s = some j) : ∀ j' < j, s[j']? ≠ some c := by
  induction s generalizing j with
  | nil => simp [scanFor] at h
  | cons a r ih =>
    simp only [scanFor] at h
    split at h
    · cases h
      omega
    · cases hr : scanFor c r with
      | none => rw [hr] at h; simp at h
      | some j0 =>
        rw [hr] at h
        simp only [Option.map_some'] at h
        cases h
        intro j' hj'
        cases j' with
        | zero =>
          simp only [List.getElem?_cons_zero]
          intro hc
          cases hc
          simp_all
        | succ j'' =>
          simp only [List.getElem?_cons_succ]
          exact ih hr j'' (by omega)

theorem scanFor_eq_none {c : Char} {s : List Char}
    (h : scanFor c s = none) : ∀ j : Nat, s[j]? ≠ some c := by
  induction s with
  | nil => simp
  | cons a r ih =>
    simp only [scanFor] at h
    split at h
    · simp at h
    · intro j
      cases j with
      | zero =>
        simp only [List.getElem?_cons_zero]
        intro hc
        cases hc
        simp_all
      | succ j' =>
        simp only [List.getElem?_cons_succ]
        exact ih (by cases hr : scanFor c r <;> simp [hr] at h ⊢) j'

theorem findTag_facts {s : List Char} {pos i : Nat}
    (h : findTag s pos = some i) :
    pos ≤ i ∧ s[i]? = some '%' ∧ i < s.length := by
  simp only [findTag] at h
  cases hs : scanFor '%' (s.drop pos) with
  | none => rw [hs] at h; simp at h
  | some j =>
    rw [hs] at h
    simp only [Option.map_some'] at h
    cases h
    have hg := scanFor_eq_some hs
    rw [List.getElem?_drop] at hg
    have hlt : pos + j < s.length := (List.getElem?_eq_some.mp hg).1
    exact ⟨by omega, by rwa [Nat.add_comm j pos], by omega⟩

theorem findTag_none {s : List Char} {pos : Nat}
    (h : findTag s pos = none) : ∀ j, pos ≤ j → s[j]? ≠ some '%' := by
  simp only [findTag] at h
  have hs : scanFor '%' (s.drop pos) = none := by
    cases hs : scanFor '%' (s.drop pos) <;> simp [hs] at h ⊢
  intro j hj
  have := scanFor_eq_none hs (j - pos)
  rwa [List.getElem?_drop, Nat.add_sub_cancel' hj] at this

theorem findTag_min {s : List Char} {pos i : Nat}
    (h : findTag s pos = some i) : ∀ j, pos ≤ j → j < i → s[j]? ≠ some '%' := by
  simp only [findTag] at h
  cases hs : scanFor '%' (s.drop pos) with
  | none => rw [hs] at h; simp at h
  | some j0 =>
    rw [hs] at h
    simp only [Option.map_some'] at h
    cases h
    intro j hj hji
    have := scanFor_min hs (j - pos) (by omega)
    rwa [List.getElem?_drop, Nat.add_sub_cancel' hj] at this

theorem isSectionAt_facts {s : List Char} {i k : Nat}
    (h : isSectionAt s i = some k) :
    s[i]? = some '{' ∧ k = braceFreeRun (s.drop (i + 1)) ∧ 1 ≤ k ∧
      s[i + 1 + k]? = some '}' ∧ i + 1 + k < s.length := by
  simp only [isSectionAt] at h
  split at h
  · split at h
    · cases h
      rename_i hbrace hcond
      refine ⟨hbrace, rfl, hcond.1, hcond.2, ?_⟩
      exact (List.getElem?_eq_some.mp hcond.2).1
    · simp at h
  · simp at h

theorem findSectionAux_facts {s : List Char} {b pos i k : Nat}
    (h : findSectionAux s pos b = some (i, k)) :
    pos ≤ i ∧ isSectionAt s i = some k := by
  induction b generalizing pos with
  | zero => simp [findSectionAux] at h
  | succ b ih =>
    simp only [findSectionAux] at h
    split at h
    · rename_i k' hk
      cases h
      exact ⟨Nat.le_refl _, hk⟩
    · have := ih h
      exact ⟨by omega, this.2⟩

theorem findSection_facts {s : List Char} {pos i k : Nat}
    (h : findSection s pos = some (i, k)) :
    pos ≤ i ∧ s[i]? = some '{' ∧ k = braceFreeRun (s.drop (i + 1)) ∧ 1 ≤ k ∧
      s[i + 1 + k]? = some '}' ∧ i + 1 + k < s.length := by
  have h1 := findSectionAux_facts h
  have h2 := isSectionAt_facts h1.2
  exact ⟨h1.1, h2.1, h2.2.1, h2.2.2.1, h2.2.2.2.1, h2.2.2.2.2⟩

theorem replaceAt_length {s v : List Char} {i n : Nat} (h : i + n ≤ s.length) :
    (replaceAt s i n v).length = i + v.length + (s.length - (i + n)) := by
  simp only [replaceAt, List.length_append, List.length_take, List.length_drop]
  omega

theorem replaceAt_drop {s v : List Char} {i n : Nat} (h : i ≤ s.length) :
    (replaceAt s i n v).drop (i + v.length) = s.drop (i + n) := by
  have hlen : (s.take i ++ v).length = i + v.length := by
    simp only [List.length_append, List.length_take]
    omega
  calc (replaceAt s i n v).drop (i + v.length)
      = ((s.take i ++ v) ++ s.drop (i + n)).drop ((s.take i ++ v).length) := by
        rw [hlen]
        simp [replaceAt, List.append_assoc]
    _ = s.drop (i + n) := List.drop_left _ _

/-! ### Termination: strict measure decrease and fuel independence -/

theorem tagStep_measure {s : List Char} {pos i : Nat}
    (h : findTag s pos = some i) (v : List Char) :
    (replaceAt s i (1 + letterRun (s.drop (i + 1))) v).length - (i + v.length)
      < s.length - pos := by
  obtain ⟨hpi, hg, hil⟩ := findTag_facts h
  have hL := letterRun_le (s.drop (i + 1))
  rw [List.length_drop] at hL
  rw [replaceAt_length (by omega)]
  omega

theorem sectionStep_measure {s : List Char} {pos i k : Nat}
    (h : findSection s pos = some (i, k)) (v : List Char) :
    (replaceAt s i (k + 2) v).length - (i + v.length) < s.length - pos := by
  obtain ⟨hpi, hbr, hkdef, hk1, hcl, hlen⟩ := findSection_facts h
  rw [replaceAt_length (by omega)]
  omega

theorem tagLoopF_irrel (env : Env) (cfg : RenderCfg) (song : Song) :
    ∀ f₁ : Nat, ∀ {f₂ : Nat} {s : List Char} {pos : Nat} {u e : Bool},
      s.length - pos < f₁ → s.length - pos < f₂ →
      tagLoopF env cfg song f₁ s pos u e = tagLoopF env cfg song f₂ s pos u e := by
  intro f₁
  induction f₁ with
  | zero =>
    intro f₂ s pos u e h1 h2
    omega
  | succ f ih =>
    intro f₂ s pos u e h1 h2
    cases f₂ with
    | zero => omega
    | succ f₂' =>
      simp only [tagLoopF]
      cases hft : findTag s pos with
      | none => rfl
      | some i =>
        obtain ⟨hpi, hg, hil⟩ := findTag_facts hft
        have hm := tagStep_measure hft
          (tagValue env cfg song ((s.drop (i + 1)).take (letterRun (s.drop (i + 1)))))
        exact ih (by omega) (by omega)

theorem psIrrel (env : Env) (cfg : RenderCfg) (song : Song) : ∀ n : Nat,
    (∀ f₁ f₂ : Nat, ∀ s : List Char, ∀ u : Bool, f₁ ≤ n →
      s.length + 2 ≤ f₁ → s.length + 2 ≤ f₂ →
      parseBlockF env cfg song f₁ s u = parseBlockF env cfg song f₂ s u) ∧
    (∀ f₁ f₂ : Nat, ∀ s : List Char, ∀ pos : Nat, ∀ u : Bool, f₁ ≤ n →
      s.length - pos < f₁ → s.length - pos < f₂ →
      sectionLoopF env cfg song f₁ s pos u = sectionLoopF env cfg song f₂ s pos u) := by
  intro n
  induction n with
  | zero =>
    constructor
    · intro f₁ f₂ s u hf h1 h2
      omega
    · intro f₁ f₂ s pos u hf h1 h2
      omega
  | succ n ih =>
    constructor
    · intro f₁ f₂ s u hf h1 h2
      cases f₁ with
      | zero => omega
      | succ g =>
        cases f₂ with
        | zero => omega
        | succ h' =>
          simp only [parseBlockF]
          rw [ih.2 g h' s 0 u (by omega) (by omega) (by omega)]
    · intro f₁ f₂ s pos u hf h1 h2
      cases f₁ with
      | zero => omega
      | succ g =>
        cases f₂ with
        | zero => omega
        | succ h' =>
          simp only [sectionLoopF]
          cases hfs : findSection s pos with
          | none => rfl
          | some ik =>
            obtain ⟨i, k⟩ := ik
            dsimp only
            obtain ⟨hpi, hbr, hkdef, hk1, hcl, hlen⟩ := findSection_facts hfs
            have hcontlen : ((s.drop (i + 1)).take k).length = k := by
              simp only [List.length_take, List.length_drop]
              omega
            rw [ih.1 g h' ((s.drop (i + 1)).take k) u (by omega)
              (by rw [hcontlen]; omega) (by rw [hcontlen]; omega)]
            have hm := sectionStep_measure hfs
              (if (parseBlockF env cfg song h' ((s.drop (i + 1)).take k) u).2.2 then []
               else (parseBlockF env cfg song h' ((s.drop (i + 1)).take k) u).1)
            exact ih.2 g h' _ _ _ (by omega) (by omega) (by omega)

theorem parseBlockF_sufficient (env : Env) (cfg : RenderCfg) (song : Song)
    {f : Nat} {s : List Char} {u : Bool} (h : s.length + 2 ≤ f) :
    parseBlockF env cfg song f s u = parseBlock env cfg song s u :=
  (psIrrel env cfg song f).1 f (s.length + 2) s u (Nat.le_refl f) h (Nat.le_refl _)

/-! ### Trimming and character-class lemmas -/

theorem dropWhile_all_false {p : Char → Bool} :
    ∀ {l : List Char}, (∀ x ∈ l, p x = false) → l.dropWhile p = l
  | [], _ => rfl
  | a :: t, h => by simp [List.dropWhile_cons, h a (List.mem_cons_self a t)]

theorem trim_of_no_ws {l : List Char} (h : ∀ x ∈ l, isWs x = false) : trim l = l := by
  unfold trim
  rw [dropWhile_all_false h,
    dropWhile_all_false (fun x hx => h x (List.mem_reverse.mp hx)),
    List.reverse_reverse]

theorem dropWhile_head?_false {p : Char → Bool} {l : List Char} {c : Char}
    (h : (l.dropWhile p).head? = some c) : p c = false := by
  have hne : l.dropWhile p ≠ [] := by
    intro hnil
    rw [hnil] at h
    simp at h
  have hh := List.head_dropWhile_not p l hne
  have h1 := List.head?_eq_head hne
  rw [h] at h1
  have hc : c = (l.dropWhile p).head hne := by
    injection h1
  rw [hc]
  exact hh

theorem trim_reverse_eq (s : List Char) :
    (trim s).reverse = (s.dropWhile isWs).reverse.dropWhile isWs := by
  simp [trim]

theorem trim_getLast_not_ws {s : List Char} {c : Char}
    (h : (trim s).getLast? = some c) : isWs c = false := by
  rw [List.getLast?_eq_head?_reverse, trim_reverse_eq] at h
  exact dropWhile_head?_false h

theorem stripLeadingThe_ne_nil {s : List Char} (hne : trim s ≠ []) :
    stripLeadingThe (trim s) ≠ [] := by
  cases hw : trim s with
  | nil => exact absurd hw hne
  | cons a l1 =>
    cases l1 with
    | nil => simp [stripLeadingThe]
    | cons b l2 =>
      cases l2 with
      | nil => simp [stripLeadingThe]
      | cons d l3 =>
        cases l3 with
        | nil => simp [stripLeadingThe]
        | cons e rest =>
          simp only [stripLeadingThe]
          split
          · intro hnil
            have hall := List.dropWhile_eq_nil_iff.mp hnil
            have hlast2 : (trim s).getLast? = (e :: rest).getLast? := by
              rw [hw, List.getLast?_cons_cons, List.getLast?_cons_cons,
                List.getLast?_cons_cons]
            cases hg : (e :: rest).getLast? with
            | none => exact absurd (List.getLast?_eq_none_iff.mp hg) (by simp)
            | some g =>
              have hmem := List.mem_of_mem_getLast? hg
              have hwsg := hall g hmem
              have : isWs g = false := trim_getLast_not_ws (by rw [hlast2, hg])
              rw [this] at hwsg
              exact absurd hwsg (by simp)
          · simp

theorem digit_not_ws {c : Char} (h : c.isDigit = true) : isWs c = false := by
  cases hc : isWs c with
  | false => rfl
  | true =>
    have hd : c = ' ' ∨ c = '\t' ∨ c = '\n' ∨ c = '\x0b' ∨ c = '\x0c' ∨ c = '\r' := by
      simpa [isWs] using hc
    rcases hd with h' | h' | h' | h' | h' | h' <;> subst h' <;> exact absurd h (by decide)

theorem digit_ne_dot {c : Char} (h : c.isDigit = true) : (c == '.') = false := by
  cases hc : (c == '.') with
  | false => rfl
  | true =>
    have : c = '.' := by simpa using hc
    subst this
    exact absurd h (by decide)

/-! ### Claim theorems -/

/-- C10: `set_format` stores the supplied template with every backslash
replaced by a forward slash, whereas the `OrganizeFormat` constructor
stores the template verbatim, so the backslash normalization holds only
for templates installed through `set_format`; on a backslash template
the two stored values differ. -/
theorem c10_set_format_normalization :
    (∀ f : List Char, (OrganizeFormat.ofFormat f).format_ = f) ∧
    (∀ (o : OrganizeFormat) (v : List Char),
      (o.setFormat v).format_ = v.map (fun c => if c = '\\' then '/' else c)) ∧
    (OrganizeFormat.ofFormat ['\\']).format_ = ['\\'] ∧
    ((OrganizeFormat.ofFormat []).setFormat ['\\']).format_ = ['/'] :=
  ⟨fun _ => rfl, fun _ _ => rfl, rfl, by decide⟩

/-- C6: resolving `artistinitial` is total: the indexed access is
always in range (`artistInitialRaw` never hits its out-of-range
branch), the empty trimmed input yields the empty output, a nonempty
trimmed input yields exactly the upper-cased first character of the
`the`-stripped value (the stripped value is provably nonempty, also for
album-artists such as `"The "`), and the tag dispatch resolves
`artistinitial` through this computation. -/
theorem c6_artistinitial_total :
    (∀ v : List Char, (artistInitialRaw v).isSome = true) ∧
    (∀ v : List Char, trim v = [] → artistInitialVal v = []) ∧
    (∀ v : List Char, trim v ≠ [] → ∃ c : Char, ∃ r : List Char,
      stripLeadingThe (trim v) = c :: r ∧ artistInitialVal v = [qToUpper c]) ∧
    (∀ song : Song,
      tagValueCore song ("artistinitial".toList) = artistInitialVal song.effective_albumartist) := by
  refine ⟨?_, ?_, ?_, fun song => rfl⟩
  · intro v
    by_cases h : trim v = []
    · simp [artistInitialRaw, h]
    · obtain ⟨c, r, hcr⟩ := List.exists_cons_of_ne_nil (stripLeadingThe_ne_nil h)
      simp [artistInitialRaw, h, hcr]
  · intro v h
    simp [artistInitialVal, artistInitialRaw, h]
  · intro v h
    obtain ⟨c, r, hcr⟩ := List.exists_cons_of_ne_nil (stripLeadingThe_ne_nil h)
    exact ⟨c, r, hcr, by simp [artistInitialVal, artistInitialRaw, h, hcr]⟩

/-- Witness for C6 at the album-artist `"The "`, whose `the`-stripped
trimmed value is the edge case of the safety argument. -/
theorem c6_artistinitial_total_witness :
    trim ("The ".toList) ≠ [] ∧ ∃ c : Char, ∃ r : List Char,
      stripLeadingThe (trim ("The ".toList)) = c :: r ∧
      artistInitialVal ("The ".toList) = [qToUpper c] :=
  ⟨by decide, c6_artistinitial_total.2.2.1 ("The ".toList) (by decide)⟩

/-- C5: the `track` tag applies sentinel suppression before padding:
track 7 resolves to `07`, track 12 to `12`, the suppressed sentinel
values `0` and `-1` resolve to the empty string (not `00`), and any
post-suppression single(-digit) character value is left-padded with
`0` (stated for environments whose invalid-path-character set contains
no digit, as is the case for the program's constant). -/
theorem c5_track_padding (env : Env) (cfg : RenderCfg) (song : Song)
    (hdig : ∀ c : Char, c.isDigit = true → env.invalidDir c = false) :
    (song.track = 7 → tagValue env cfg song ("track".toList) = ['0', '7']) ∧
    (song.track = 12 → tagValue env cfg song ("track".toList) = ['1', '2']) ∧
    (song.track = 0 → tagValue env cfg song ("track".toList) = []) ∧
    (song.track = -1 → tagValue env cfg song ("track".toList) = []) ∧
    (∀ c : Char, sentinelSuppress (intStr song.track) = [c] → c.isDigit = true →
      tagValue env cfg song ("track".toList) = ['0', c]) := by
  have hcore : tagValueCore song ("track".toList) = intStr song.track := rfl
  have key : ∀ c : Char, sentinelSuppress (intStr song.track) = [c] → c.isDigit = true →
      tagValue env cfg song ("track".toList) = ['0', c] := by
    intro c hs hcd
    have h0 : env.invalidDir '0' = false := hdig '0' (by decide)
    have hc : env.invalidDir c = false := hdig c hcd
    have hnws : ∀ x ∈ ['0', c], isWs x = false := by
      intro x hx
      simp only [List.mem_cons, List.not_mem_nil, or_false] at hx
      rcases hx with rfl | rfl
      · decide
      · exact digit_not_ws hcd
    simp only [tagValue, hcore, hs]
    rw [if_pos (⟨trivial, rfl⟩ : True ∧ ([c] : List Char).length = 1)]
    have h0d : (('0' : Char) == '.') = false := by decide
    have hfil : List.filter (fun x => !env.invalidDir x) ['0', c] = ['0', c] := by
      simp [List.filter_cons, h0, hc]
    have hfil2 : List.filter (fun x => !(x == '.')) ['0', c] = ['0', c] := by
      simp [List.filter_cons, h0d, digit_ne_dot hcd]
    rw [hfil]
    split
    · rw [hfil2]
      exact trim_of_no_ws hnws
    · exact trim_of_no_ws hnws
  have hzero : ∀ t : Int, song.track = t → sentinelSuppress (intStr t) = [] →
      tagValue env cfg song ("track".toList) = [] := by
    intro t ht hsup
    simp only [tagValue, hcore, ht, hsup]
    rw [if_neg (show ¬(True ∧ ([] : List Char).length = 1) by simp)]
    simp [trim]
  refine ⟨?_, ?_, ?_, ?_, key⟩
  · intro h7
    exact key '7' (by rw [h7]; decide) (by decide)
  · intro h12
    have hs : sentinelSuppress (intStr song.track) = ['1', '2'] := by rw [h12]; decide
    have h1 : env.invalidDir '1' = false := hdig '1' (by decide)
    have h2 : env.invalidDir '2' = false := hdig '2' (by decide)
    simp only [tagValue, hcore, hs]
    rw [if_neg (show ¬(True ∧ (['1', '2'] : List Char).length = 1) by simp)]
    have hfil : List.filter (fun x => !env.invalidDir x) ['1', '2'] = ['1', '2'] := by
      simp [List.filter_cons, h1, h2]
    have hfil2 : List.filter (fun x => !(x == '.')) ['1', '2'] = ['1', '2'] := by decide
    rw [hfil]
    split
    · rw [hfil2]
      exact trim_of_no_ws (by decide)
    · exact trim_of_no_ws (by decide)
  · intro h0
    exact hzero 0 h0 (by decide)
  · intro hm1
    exact hzero (-1) hm1 (by decide)

/-- Witness for C5 in the standard environment at tracks 7, 12, 0. -/
theorem c5_track_padding_witness :
    tagValue envStd cfgStd { songEmpty with track := 7 } ("track".toList) = ['0', '7'] ∧
    tagValue envStd cfgStd { songEmpty with track := 12 } ("track".toList) = ['1', '2'] ∧
    tagValue envStd cfgStd { songEmpty with track := 0 } ("track".toList) = [] := by
  have hdig : ∀ c : Char, c.isDigit = true → envStd.invalidDir c = false := by
    intro c hc
    simp only [envStd, decide_eq_false_iff_not]
    rintro (rfl | rfl) <;> exact absurd hc (by decide)
  exact ⟨(c5_track_padding envStd cfgStd _ hdig).1 rfl,
    (c5_track_padding envStd cfgStd _ hdig).2.1 rfl,
    (c5_track_padding envStd cfgStd _ hdig).2.2.1 rfl⟩

/-- C1 counterexample: for the template of the claim, with a record
whose `album` placeholder resolves to `X` and whose year `0` is
suppressed to empty, the evaluation does not yield `X ()`: an opening
brace remains in the output. -/
theorem c1_nested_counterexample :
    tagValue envStd cfgStd songAlbumX ("album".toList) = "X".toList ∧
    tagValue envStd cfgStd songAlbumX ("year".toList) = [] ∧
    (parseBlock envStd cfgStd songAlbumX tmplNested false).1 ≠ "X ()".toList ∧
    '{' ∈ (parseBlock envStd cfgStd songAlbumX tmplNested false).1 := by
  decide

/-- C1 amended: the inner section is collapsed first, but the section
scan only looks for matches at or after the current position, which has
already moved past the outer opening brace when the inner section is
replaced; the outer markers are therefore never revisited and remain as
literal text, so the template evaluates to `\x7bX ()\x7d` (with neither
flag set). -/
theorem c1_nested_amended :
    parseBlock envStd cfgStd songAlbumX tmplNested false
      = ("\x7bX ()\x7d".toList, false, false) := by
  decide

/-- C4: the assembler rejects — returning the sentinel `none`, which is
distinct from every successful result by construction — exactly when
the candidate path after template evaluation and base-filename fallback
is empty, or contains a `/` with an empty directory portion; in every
other case it returns the sanitized path together with the uniqueness
flag. -/
theorem c4_rejection_sentinel (env : Env) (cfg : RenderCfg) (fmt : List Char)
    (song : Song) (extension : List Char) :
    (getFilenameForSong env cfg fmt song extension = none ↔
      (candidatePath env cfg fmt song = [] ∨
        ((candidatePath env cfg fmt song).contains '/' = true ∧
          dirPortion (candidatePath env cfg fmt song) = []))) ∧
    (¬ (candidatePath env cfg fmt song = [] ∨
        ((candidatePath env cfg fmt song).contains '/' = true ∧
          dirPortion (candidatePath env cfg fmt song) = [])) →
      getFilenameForSong env cfg fmt song extension =
        some (sanitize env cfg song extension (candidatePath env cfg fmt song),
          uniqueFlag env cfg fmt song)) := by
  by_cases h : candidatePath env cfg fmt song = [] ∨
      ((candidatePath env cfg fmt song).contains '/' = true ∧
        dirPortion (candidatePath env cfg fmt song) = [])
  · refine ⟨?_, fun hn => absurd h hn⟩
    simp only [getFilenameForSong]
    rw [if_pos h]
    exact iff_of_true rfl h
  · refine ⟨?_, fun _ => ?_⟩
    · simp only [getFilenameForSong]
      rw [if_neg h]
      exact iff_of_false (by simp) h
    · simp only [getFilenameForSong]
      rw [if_neg h]

/-- Witness for C4: a two-segment template is not rejected and yields
the sanitized path with the uniqueness flag. -/
theorem c4_rejection_sentinel_witness :
    getFilenameForSong envStd cfgStd ("a/b".toList) songEmpty [] =
      some (sanitize envStd cfgStd songEmpty [] (candidatePath envStd cfgStd ("a/b".toList) songEmpty),
        uniqueFlag envStd cfgStd ("a/b".toList) songEmpty) :=
  (c4_rejection_sentinel envStd cfgStd ("a/b".toList) songEmpty []).2 (by decide)

/-! ### Marker-count lemmas and the bare-placeholder behaviour -/

theorem count_drop_le (c : Char) {s : List Char} {a b : Nat} (h : a ≤ b) :
    ((s.drop b).count c) ≤ ((s.drop a).count c) := by
  have heq : s.drop b = (s.drop a).drop (b - a) := by
    rw [List.drop_drop]
    congr 1
    omega
  rw [heq]
  exact List.Sublist.count_le (List.drop_sublist _ _) c

theorem step_count_lt {s v : List Char} {pos i n : Nat} {c : Char}
    (hpi : pos ≤ i) (hin : i + n ≤ s.length) (hn : 1 ≤ n) (hc : s[i]? = some c) :
    (((replaceAt s i n v).drop (i + v.length)).count c) < ((s.drop pos).count c) := by
  rw [replaceAt_drop (by omega)]
  obtain ⟨hlt, hget⟩ := List.getElem?_eq_some.mp hc
  have hdropi : s.drop i = c :: s.drop (i + 1) := by
    rw [List.drop_eq_getElem_cons hlt, hget]
  calc ((s.drop (i + n)).count c)
      ≤ ((s.drop (i + 1)).count c) := count_drop_le c (by omega)
    _ < ((s.drop i).count c) := by
        rw [hdropi]
        simp [List.count_cons]
    _ ≤ ((s.drop pos).count c) := count_drop_le c hpi

theorem letterRun_getElem {l : List Char} {m : Nat} (h : m < letterRun l) :
    ∃ c, l[m]? = some c ∧ isTagLetter c = true := by
  induction l generalizing m with
  | nil => simp [letterRun] at h
  | cons a t ih =>
    simp only [letterRun] at h
    split at h
    · rename_i ha
      cases m with
      | zero => exact ⟨a, by simp, ha⟩
      | succ m' =>
        obtain ⟨c, hc, hl⟩ := @ih m' (by omega)
        exact ⟨c, by simpa using hc, hl⟩
    · omega

theorem braceFreeRun_getElem {l : List Char} {m : Nat} (h : m < braceFreeRun l) :
    ∃ c, l[m]? = some c ∧ isBrace c = false := by
  induction l generalizing m with
  | nil => simp [braceFreeRun] at h
  | cons a t ih =>
    simp only [braceFreeRun] at h
    split at h
    · omega
    · rename_i ha
      cases m with
      | zero =>
        refine ⟨a, by simp, ?_⟩
        cases hb : isBrace a with
        | false => rfl
        | true => exact absurd hb (by simp [ha])
      | succ m' =>
        obtain ⟨c, hc, hl⟩ := @ih m' (by omega)
        exact ⟨c, by simpa using hc, hl⟩

theorem tagValue_empty (env : Env) (cfg : RenderCfg) (song : Song) :
    tagValue env cfg song [] = [] := by
  obtain ⟨rp, rnf, rna, aae, rs⟩ := cfg
  cases rp <;> rfl

theorem tagLoopF_keeps_empty (env : Env) (cfg : RenderCfg) (song : Song) :
    ∀ (f : Nat) (s : List Char) (pos : Nat) (u : Bool),
      (tagLoopF env cfg song f s pos u true).2.2 = true := by
  intro f
  induction f with
  | zero => intro s pos u; rfl
  | succ f ih =>
    intro s pos u
    simp only [tagLoopF]
    cases hft : findTag s pos with
    | none => rfl
    | some i =>
      dsimp only
      simp only [ite_self]
      exact ih _ _ _

theorem tagLoopF_bare (env : Env) (cfg : RenderCfg) (song : Song) :
    ∀ (f : Nat) (s : List Char) (pos : Nat) (u e : Bool),
      s.length - pos < f →
      (∃ j : Nat, pos ≤ j ∧ s[j]? = some '%' ∧ letterRun (s.drop (j + 1)) = 0) →
      (tagLoopF env cfg song f s pos u e).2.2 = true := by
  intro f
  induction f with
  | zero =>
    intro s pos u e hf _
    omega
  | succ f ih =>
    intro s pos u e hf hbare
    obtain ⟨j, hpj, hj, hlr⟩ := hbare
    simp only [tagLoopF]
    cases hft : findTag s pos with
    | none => exact absurd hj (findTag_none hft j hpj)
    | some i =>
      dsimp only
      obtain ⟨hpi, hgi, hil⟩ := findTag_facts hft
      have hL := letterRun_le (s.drop (i + 1))
      rw [List.length_drop] at hL
      by_cases hLz : letterRun (s.drop (i + 1)) = 0
      · have hval : tagValue env cfg song ((s.drop (i + 1)).take (letterRun (s.drop (i + 1)))) = [] := by
          rw [hLz, List.take_zero]
          exact tagValue_empty env cfg song
        rw [hval]
        simp only [if_pos rfl]
        exact tagLoopF_keeps_empty env cfg song _ _ _ _
      · have hij : i + 1 + letterRun (s.drop (i + 1)) ≤ j := by
          rcases Nat.lt_or_ge j (i + 1 + letterRun (s.drop (i + 1))) with hlt | hge
          · rcases Nat.lt_or_ge j i with hji | hij2
            · exact absurd hj (findTag_min hft j hpj hji)
            · rcases Nat.eq_or_lt_of_le hij2 with rfl | hji
              · exact absurd hlr hLz
              · have hm : j - (i + 1) < letterRun (s.drop (i + 1)) := by omega
                obtain ⟨c, hc, hlet⟩ := letterRun_getElem hm
                rw [List.getElem?_drop] at hc
                have : i + 1 + (j - (i + 1)) = j := by omega
                rw [this] at hc
                rw [hj] at hc
                cases hc
                exact absurd hlet (by decide)
          · exact hge
        set L := letterRun (s.drop (i + 1)) with hLdef
        set value := tagValue env cfg song ((s.drop (i + 1)).take L) with hvdef
        have hmeas := tagStep_measure hft value
        rw [← hLdef] at hmeas
        have hdropj : (replaceAt s i (1 + L) value).drop (j - (1 + L) + value.length)
            = s.drop j := by
          have h1 : (replaceAt s i (1 + L) value).drop (i + value.length) = s.drop (i + (1 + L)) :=
            replaceAt_drop (by omega)
          have h2 : (replaceAt s i (1 + L) value).drop (j - (1 + L) + value.length)
              = ((replaceAt s i (1 + L) value).drop (i + value.length)).drop (j - (1 + L) - i) := by
            rw [List.drop_drop]
            congr 1
            omega
          rw [h2, h1, List.drop_drop]
          congr 1
          omega
        refine ih _ _ _ _ (by omega) ⟨j - (1 + L) + value.length, by omega, ?_, ?_⟩
        · have h4 := List.getElem?_drop (replaceAt s i (1 + L) value) (j - (1 + L) + value.length) 0
          rw [hdropj] at h4
          rw [List.getElem?_drop] at h4
          simp only [Nat.add_zero] at h4
          rw [← h4]
          exact hj
        · have : (replaceAt s i (1 + L) value).drop (j - (1 + L) + value.length + 1)
              = s.drop (j + 1) := by
            have h3 : (replaceAt s i (1 + L) value).drop (j - (1 + L) + value.length + 1)
                = ((replaceAt s i (1 + L) value).drop (j - (1 + L) + value.length)).drop 1 := by
              rw [List.drop_drop]
            rw [h3, hdropj, List.drop_drop]
          rw [this]
          exact hlr

theorem isSectionAt_none_of {s : List Char}
    (h : ∀ (m : Nat) (c : Char), s[m]? = some c → isBrace c = false) :
    ∀ i : Nat, isSectionAt s i = none := by
  intro i
  unfold isSectionAt
  cases hs : s[i]? with
  | none => simp
  | some c =>
    have hb := h i c hs
    rw [if_neg]
    intro hc
    injection hc with hcc
    subst hcc
    exact absurd hb (by decide)

theorem findSectionAux_none_of {s : List Char}
    (h : ∀ i : Nat, isSectionAt s i = none) :
    ∀ (b pos : Nat), findSectionAux s pos b = none := by
  intro b
  induction b with
  | zero => intro pos; rfl
  | succ b ih =>
    intro pos
    simp only [findSectionAux, h pos]
    exact ih (pos + 1)

theorem parseBlock_braceFree (env : Env) (cfg : RenderCfg) (song : Song)
    {content : List Char} (u : Bool)
    (h : ∀ (m : Nat) (c : Char), content[m]? = some c → isBrace c = false) :
    parseBlock env cfg song content u =
      tagLoopF env cfg song (content.length + 1) content 0 u false := by
  have hfs : findSection content 0 = none :=
    findSectionAux_none_of (isSectionAt_none_of h) _ _
  show parseBlockF env cfg song (content.length + 2) content u = _
  simp only [parseBlockF, sectionLoopF, hfs]

/-- C8: template evaluation terminates on every input.  Each iteration
of the tag loop strictly reduces the number of `%` markers remaining at
or after the scan position (whatever value is substituted), each
iteration of the section loop strictly reduces the number of `{`
markers remaining at or after the scan position, and consequently the
fuelled evaluator is fuel-independent above the structural bound, so
`parseBlock` is a well-defined total function of its inputs. -/
theorem c8_termination (env : Env) (cfg : RenderCfg) (song : Song) :
    (∀ (s v : List Char) (pos i : Nat), findTag s pos = some i →
      (((replaceAt s i (1 + letterRun (s.drop (i + 1))) v).drop (i + v.length)).count '%')
        < ((s.drop pos).count '%')) ∧
    (∀ (s v : List Char) (pos i k : Nat), findSection s pos = some (i, k) →
      (((replaceAt s i (k + 2) v).drop (i + v.length)).count '{')
        < ((s.drop pos).count '{')) ∧
    (∀ (f : Nat) (s : List Char) (u : Bool), s.length + 2 ≤ f →
      parseBlockF env cfg song f s u = parseBlock env cfg song s u) := by
  refine ⟨?_, ?_, ?_⟩
  · intro s v pos i hft
    obtain ⟨hpi, hgi, hil⟩ := findTag_facts hft
    have hL := letterRun_le (s.drop (i + 1))
    rw [List.length_drop] at hL
    exact step_count_lt hpi (by omega) (by omega) hgi
  · intro s v pos i k hfs
    obtain ⟨hpi, hbr, hkdef, hk1, hcl, hlen⟩ := findSection_facts hfs
    exact step_count_lt hpi (by omega) (by omega) hbr
  · intro f s u hf
    exact parseBlockF_sufficient env cfg song hf

/-- Witness for C8: a concrete tag-loop step on `a%tb` reduces the
remaining-marker count, and the fuelled evaluator agrees with the
wrapper at a fuel above the bound. -/
theorem c8_termination_witness :
    ((((replaceAt ("a%tb".toList) 1 (1 + letterRun (("a%tb".toList).drop (1 + 1))) []).drop
        (1 + ([] : List Char).length)).count '%')
      < ((("a%tb".toList).drop 0).count '%')) ∧
    parseBlockF envStd cfgStd songEmpty 9 ("%t".toList) false
      = parseBlock envStd cfgStd songEmpty ("%t".toList) false :=
  ⟨(c8_termination envStd cfgStd songEmpty).1 ("a%tb".toList) [] 0 1 (by decide),
   (c8_termination envStd cfgStd songEmpty).2.2 9 ("%t".toList) false (by decide)⟩

/-- C9: the tag pattern accepts the empty name: the empty tag resolves
to the empty string through the dispatch fall-through; any `%` with no
following letter (at or after the scan position) forces the level's
emptiness flag to `true` when the tag loop finishes (the `%` itself is
consumed and replaced by the empty resolved value); and the recursive
evaluation of a matched section whose (brace-free) content contains
such a bare `%` reports empty, so the enclosing section collapses to
the empty string. -/
theorem c9_bare_placeholder (env : Env) (cfg : RenderCfg) (song : Song) :
    (tagValue env cfg song [] = []) ∧
    (∀ (f : Nat) (s : List Char) (pos : Nat) (u e : Bool),
      s.length - pos < f →
      (∃ j : Nat, pos ≤ j ∧ s[j]? = some '%' ∧ letterRun (s.drop (j + 1)) = 0) →
      (tagLoopF env cfg song f s pos u e).2.2 = true) ∧
    (∀ (s : List Char) (pos i k : Nat) (u : Bool), findSection s pos = some (i, k) →
      (∃ j : Nat, ((s.drop (i + 1)).take k)[j]? = some '%' ∧
        letterRun (((s.drop (i + 1)).take k).drop (j + 1)) = 0) →
      (parseBlock env cfg song ((s.drop (i + 1)).take k) u).2.2 = true) := by
  refine ⟨tagValue_empty env cfg song, tagLoopF_bare env cfg song, ?_⟩
  intro s pos i k u hfs hbare
  obtain ⟨hpi, hbr, hkdef, hk1, hcl, hlen⟩ := findSection_facts hfs
  have hnb : ∀ (m : Nat) (c : Char), ((s.drop (i + 1)).take k)[m]? = some c →
      isBrace c = false := by
    intro m c hmc
    have hmk : m < k := by
      have hlt := (List.getElem?_eq_some.mp hmc).1
      rw [List.length_take] at hlt
      omega
    rw [List.getElem?_take_of_lt hmk] at hmc
    have hm2 : m < braceFreeRun (s.drop (i + 1)) := by omega
    obtain ⟨c', hc', hbc'⟩ := braceFreeRun_getElem hm2
    rw [hc'] at hmc
    injection hmc with hcc
    subst hcc
    exact hbc'
  rw [parseBlock_braceFree env cfg song u hnb]
  obtain ⟨j, hj, hlr⟩ := hbare
  have hjlen : j < ((s.drop (i + 1)).take k).length :=
    (List.getElem?_eq_some.mp hj).1
  exact tagLoopF_bare env cfg song _ _ _ _ _ (by omega) ⟨j, Nat.zero_le j, hj, hlr⟩

/-- Witness for C9: in the template `\x7bx%\x7d` the section content `x%`
contains a bare `%`; the recursive evaluation of the content reports
empty, so the section collapses. -/
theorem c9_bare_placeholder_witness :
    (tagValue envStd cfgStd songEmpty [] = []) ∧
    (parseBlock envStd cfgStd songEmpty ((("\x7bx%\x7d".toList).drop (0 + 1)).take 2) false).2.2
      = true :=
  ⟨(c9_bare_placeholder envStd cfgStd songEmpty).1,
   (c9_bare_placeholder envStd cfgStd songEmpty).2.2 ("\x7bx%\x7d".toList) 0 0 2 false
     (by decide) ⟨1, by decide, by decide⟩⟩

/-! ### Segment lemmas for the per-segment cleanup -/

theorem splitOnP_pieces {p : Char → Bool} :
    ∀ l : List Char, ∀ x ∈ l.splitOnP p, ∀ a ∈ x, p a = false := by
  intro l
  induction l with
  | nil =>
    intro x hx a ha
    simp only [List.splitOnP_nil, List.mem_singleton] at hx
    subst hx
    simp at ha
  | cons b t ih =>
    intro x hx a ha
    rw [List.splitOnP_cons] at hx
    split at hx
    · rcases List.mem_cons.mp hx with rfl | hx2
      · simp at ha
      · exact ih x hx2 a ha
    · rename_i hpb
      cases hsp : t.splitOnP p with
      | nil => exact absurd hsp (List.splitOnP_ne_nil p t)
      | cons hpiece tl =>
        rw [hsp, List.modifyHead_cons] at hx
        rcases List.mem_cons.mp hx with rfl | hx2
        · rcases List.mem_cons.mp ha with rfl | ha2
          · simpa using hpb
          · exact ih hpiece (by rw [hsp]; exact List.mem_cons_self _ _) a ha2
        · exact ih x (by rw [hsp]; exact List.mem_cons_of_mem _ hx2) a ha

theorem splitOn_slash_pieces {l x : List Char} (hx : x ∈ l.splitOn '/') : '/' ∉ x := by
  intro hmem
  have := splitOnP_pieces l x hx '/' hmem
  simp at this

theorem mem_of_mem_trim {l : List Char} {a : Char} (h : a ∈ trim l) : a ∈ l := by
  unfold trim at h
  rw [List.mem_reverse] at h
  have h1 := (List.dropWhile_sublist (l := (l.dropWhile isWs).reverse) isWs).mem h
  rw [List.mem_reverse] at h1
  exact (List.dropWhile_sublist isWs).mem h1

theorem mem_of_mem_cleanSegment {part : List Char} {a : Char}
    (h : a ∈ cleanSegment part) : a ∈ part := by
  have h1 := mem_of_mem_trim h
  unfold stripOneInvalid at h1
  split at h1
  · exact (List.drop_sublist 1 part).mem h1
  · exact h1

theorem trim_head? {x : List Char} {c : Char} (h : (trim x).head? = some c) :
    (x.dropWhile isWs).head? = some c := by
  have hpre : (trim x).reverse.reverse <+: (x.dropWhile isWs).reverse.reverse := by
    rw [List.reverse_prefix]
    rw [trim_reverse_eq]
    exact List.dropWhile_suffix isWs
  rw [List.reverse_reverse, List.reverse_reverse] at hpre
  obtain ⟨t, ht⟩ := hpre
  cases htr : trim x with
  | nil => rw [htr] at h; simp at h
  | cons a r =>
    rw [htr] at h
    simp only [List.head?_cons, Option.some.injEq] at h
    subst h
    rw [htr] at ht
    rw [← ht]
    rfl

/-- C2 counterexample: with the default configuration, the template
`..d/file` renders successfully to `.d/file.mp3`, whose first segment
`.d` still begins with the invalid-prefix character `.` — the
pre-cleanup segment `..d` began with two such characters and only one
was stripped. -/
theorem c2_prefix_counterexample :
    getFilenameForSong envStd cfgStd ("..d/file".toList) songEmpty ("mp3".toList)
      = some (".d/file.mp3".toList, false) ∧
    (".d/file.mp3".toList).splitOn '/' = [".d".toList, "file.mp3".toList] ∧
    (".d".toList).head? = some '.' ∧ '.' ∈ kInvalidPrefixCharacters := by
  decide

/-- C2 amended: the per-segment cleanup maps each `/`-separated segment
to the trimmed result of stripping exactly one leading invalid-prefix
character; a segment is guaranteed free of a leading invalid-prefix
character only when, after that single strip, its first non-whitespace
character is not an invalid-prefix character — a pre-cleanup segment
starting with two or more such characters keeps one. -/
theorem c2_prefix_amended :
    (∀ p : List Char,
      (perSegmentCleanup p).splitOn '/' = (p.splitOn '/').map cleanSegment) ∧
    (∀ part : List Char,
      (∀ c ∈ kInvalidPrefixCharacters, ((stripOneInvalid part).dropWhile isWs).head? ≠ some c) →
      ∀ c ∈ kInvalidPrefixCharacters, (cleanSegment part).head? ≠ some c) := by
  constructor
  · intro p
    unfold perSegmentCleanup
    apply List.splitOn_intercalate
    · intro l hl hsl
      obtain ⟨orig, horig, rfl⟩ := List.mem_map.mp hl
      exact splitOn_slash_pieces horig (mem_of_mem_cleanSegment hsl)
    · simp only [ne_eq, List.map_eq_nil_iff]
      intro hnil
      have h1 : p.splitOn '/' ≠ [] := List.splitOnP_ne_nil _ p
      exact h1 hnil
  · intro part h c hc hhead
    exact h c hc (trim_head? hhead)

/-- Witness for C2 amended, at the counterexample path and at a clean
segment. -/
theorem c2_prefix_amended_witness :
    ((perSegmentCleanup ("..d/file".toList)).splitOn '/'
      = (("..d/file".toList).splitOn '/').map cleanSegment) ∧
    (cleanSegment ("d".toList)).head? ≠ some '.' :=
  ⟨c2_prefix_amended.1 ("..d/file".toList),
   c2_prefix_amended.2 ("d".toList) (by decide) '.' (by decide)⟩

/-- C3 counterexample: with replace-spaces enabled, a caller-supplied
extension containing a space survives into the rendered path, because
the extension is appended after the whitespace substitution. -/
theorem c3_whitespace_counterexample :
    getFilenameForSong envStd cfgStd ("f".toList) songEmpty ['a', ' ', 'b']
      = some ("f.a b".toList, false) ∧
    ' ' ∈ "f.a b".toList ∧ isWs ' ' = true := by
  decide

theorem noWs_map_replace (l : List Char) :
    ∀ x ∈ l.map (fun c => if isWs c then '_' else c), isWs x = false := by
  intro x hx
  obtain ⟨a, _, rfl⟩ := List.mem_map.mp hx
  cases hws : isWs a with
  | true =>
    rw [if_pos rfl]
    decide
  | false =>
    rw [if_neg (by simp)]
    exact hws

/-- C3 amended: with replace-spaces enabled, the rendered path contains
no whitespace provided the determined extension (the caller-supplied
override, or the suffix derived during the fixup stage) itself contains
none; every whitespace character of the pre-extension path is replaced
by an underscore. -/
theorem c3_whitespace_amended (env : Env) (cfg : RenderCfg) (song : Song)
    (extension fp : List Char)
    (hrs : cfg.replace_spaces = true)
    (hext : ∀ c ∈ determineExtn song extension (sanitizeStages env cfg fp), isWs c = false) :
    ∀ c ∈ sanitize env cfg song extension fp, isWs c = false := by
  intro c hc
  simp only [sanitize, hrs, if_true] at hc
  by_cases hx : determineExtn song extension (sanitizeStages env cfg fp) = []
  · rw [if_neg (by simp [hx])] at hc
    exact noWs_map_replace _ c hc
  · rw [if_pos (by simp [hx])] at hc
    rcases List.mem_append.mp hc with hc1 | hc2
    · exact noWs_map_replace _ c hc1
    · rcases List.mem_cons.mp hc2 with rfl | hc3
      · decide
      · exact hext c hc3

/-- Witness for C3 amended: the path `a b` with extension `mp3`
sanitizes to `a_b.mp3`; the underscore produced by the substitution is
not whitespace. -/
theorem c3_whitespace_amended_witness : isWs '_' = false :=
  c3_whitespace_amended envStd cfgStd songEmpty ("mp3".toList) ("a b".toList)
    (by decide) (by decide) '_' (by decide)

/-! ### Path-algebra lemmas for the sanitizer fixed point -/

theorem takeWhile_append_all {p : Char → Bool} :
    ∀ {l₁ l₂ : List Char}, (∀ x ∈ l₁, p x = true) →
      (l₁ ++ l₂).takeWhile p = l₁ ++ l₂.takeWhile p := by
  intro l₁
  induction l₁ with
  | nil => intro l₂ _; simp
  | cons a t ih =>
    intro l₂ h
    simp only [List.cons_append, List.takeWhile_cons, h a (List.mem_cons_self a t), if_true]
    rw [ih (fun x hx => h x (List.mem_cons_of_mem a hx))]

theorem dropWhile_append_all {p : Char → Bool} :
    ∀ {l₁ l₂ : List Char}, (∀ x ∈ l₁, p x = true) →
      (l₁ ++ l₂).dropWhile p = l₂.dropWhile p := by
  intro l₁
  induction l₁ with
  | nil => intro l₂ _; simp
  | cons a t ih =>
    intro l₂ h
    simp only [List.cons_append, List.dropWhile_cons, h a (List.mem_cons_self a t), if_true]
    exact ih (fun x hx => h x (List.mem_cons_of_mem a hx))

theorem takeWhile_append_stop {p : Char → Bool} {a : Char} :
    ∀ {l₁ l₂ : List Char}, (∀ x ∈ l₁, p x = true) → p a = false →
      (l₁ ++ a :: l₂).takeWhile p = l₁ := by
  intro l₁
  induction l₁ with
  | nil =>
    intro l₂ _ ha
    simp [List.takeWhile_cons, ha]
  | cons b t ih =>
    intro l₂ h ha
    simp only [List.cons_append, List.takeWhile_cons, h b (List.mem_cons_self b t), if_true]
    rw [ih (fun x hx => h x (List.mem_cons_of_mem b hx)) ha]

theorem fileNameOf_append {a b : List Char} (hb : ∀ c ∈ b, c ≠ '/') :
    fileNameOf (a ++ b) = fileNameOf a ++ b := by
  unfold fileNameOf
  rw [List.reverse_append,
    takeWhile_append_all (fun x hx => by simp [hb x (List.mem_reverse.mp hx)]),
    List.reverse_append, List.reverse_reverse]

theorem fileNameOf_no_slash {p : List Char} (h : ∀ c ∈ p, c ≠ '/') :
    fileNameOf p = p := by
  have := fileNameOf_append (a := []) h
  simpa using this

theorem completeBaseName_append_ext {x e : List Char}
    (he : ∀ c ∈ e, c ≠ '.') (he2 : ∀ c ∈ e, c ≠ '/') :
    completeBaseName (x ++ '.' :: e) = fileNameOf x := by
  have hf : fileNameOf (x ++ '.' :: e) = fileNameOf x ++ '.' :: e := by
    apply fileNameOf_append
    intro c hc
    rcases List.mem_cons.mp hc with rfl | hc2
    · decide
    · exact he2 c hc2
  unfold completeBaseName
  rw [hf]
  dsimp only
  have hrev : (fileNameOf x ++ '.' :: e).reverse
      = e.reverse ++ '.' :: (fileNameOf x).reverse := by
    simp
  rw [hrev]
  have htw : (e.reverse ++ '.' :: (fileNameOf x).reverse).takeWhile (fun c => ¬ c = '.')
      = e.reverse := by
    apply takeWhile_append_stop
    · intro c hc
      simp [he c (List.mem_reverse.mp hc)]
    · simp
  rw [htw]
  rw [if_neg (by simp; omega)]
  have h1 : (e.reverse ++ '.' :: (fileNameOf x).reverse).drop (e.reverse.length + 1)
      = (fileNameOf x).reverse := by
    have h2 : e.reverse ++ '.' :: (fileNameOf x).reverse
        = (e.reverse ++ ['.']) ++ (fileNameOf x).reverse := by simp
    have h3 : e.reverse.length + 1 = (e.reverse ++ ['.']).length := by simp
    rw [h2, h3, List.drop_left]
  rw [h1, List.reverse_reverse]

theorem pathOf_append {a b : List Char} (hb : ∀ c ∈ b, c ≠ '/') :
    pathOf (a ++ b) = pathOf a := by
  unfold pathOf
  rw [List.reverse_append,
    dropWhile_append_all (fun x hx => by simp [hb x (List.mem_reverse.mp hx)])]

theorem simplified_of_no_ws {l : List Char} (h : ∀ c ∈ l, isWs c = false) :
    simplified l = l := by
  unfold simplified
  rw [List.splitOnP_eq_single _ _ (fun x hx => by simp [h x hx])]
  by_cases hl : l = []
  · subst hl
    decide
  · have hfil : List.filter (fun w => ¬ w = []) [l] = ([l] : List (List Char)) := by
      simp [hl]
    rw [hfil]
    simp [List.intercalate]

theorem map_wsrepl_id {l : List Char} (h : ∀ c ∈ l, isWs c = false) :
    l.map (fun c => if isWs c then '_' else c) = l := by
  induction l with
  | nil => rfl
  | cons a t ih =>
    simp only [List.map_cons]
    rw [if_neg (by simp [h a (List.mem_cons_self a t)]),
      ih (fun c hc => h c (List.mem_cons_of_mem a hc))]

theorem map_eq_self_of {α : Type} {f : α → α} :
    ∀ {l : List α}, (∀ a ∈ l, f a = a) → l.map f = l
  | [], _ => rfl
  | a :: t, h => by
    simp only [List.map_cons, h a (List.mem_cons_self a t),
      map_eq_self_of (fun x hx => h x (List.mem_cons_of_mem a hx))]

theorem splitOn_ne_nil (l : List Char) : l.splitOn '/' ≠ [] :=
  List.splitOnP_ne_nil _ l

theorem splitOn_cons_sep {l : List Char} :
    ('/' :: l).splitOn '/' = [] :: l.splitOn '/' := by
  simp [List.splitOn, List.splitOnP_cons]

theorem splitOn_cons_ne {a : Char} {l : List Char} (h : a ≠ '/') :
    (a :: l).splitOn '/' = (l.splitOn '/').modifyHead (List.cons a) := by
  simp [List.splitOn, List.splitOnP_cons, h]

theorem splitOnP_pieces_mem {p : Char → Bool} :
    ∀ l : List Char, ∀ x ∈ l.splitOnP p, ∀ a ∈ x, a ∈ l := by
  intro l
  induction l with
  | nil =>
    intro x hx a ha
    simp only [List.splitOnP_nil, List.mem_singleton] at hx
    subst hx
    simp at ha
  | cons b t ih =>
    intro x hx a ha
    rw [List.splitOnP_cons] at hx
    split at hx
    · rcases List.mem_cons.mp hx with rfl | hx2
      · simp at ha
      · exact List.mem_cons_of_mem b (ih x hx2 a ha)
    · cases hsp : t.splitOnP p with
      | nil => exact absurd hsp (List.splitOnP_ne_nil p t)
      | cons hpiece tl =>
        rw [hsp, List.modifyHead_cons] at hx
        rcases List.mem_cons.mp hx with rfl | hx2
        · rcases List.mem_cons.mp ha with rfl | ha2
          · exact List.mem_cons_self a t
          · exact List.mem_cons_of_mem b
              (ih hpiece (by rw [hsp]; exact List.mem_cons_self _ _) a ha2)
        · exact List.mem_cons_of_mem b
            (ih x (by rw [hsp]; exact List.mem_cons_of_mem _ hx2) a ha)

theorem mem_dropLast_or_getLastD {x : List Char} {l : List (List Char)} (h : x ∈ l) :
    x ∈ l.dropLast ∨ x = l.getLastD [] := by
  have hne : l ≠ [] := by
    intro h0
    rw [h0] at h
    simp at h
  have hid := List.dropLast_append_getLast hne
  rw [← hid] at h
  rcases List.mem_append.mp h with h1 | h2
  · exact Or.inl h1
  · right
    have hx : x = l.getLast hne := by simpa using h2
    rw [hx, List.getLastD_eq_getLast?]
    rw [List.getLast?_eq_getLast l hne]
    rfl

theorem splitOn_append_no_sep :
    ∀ (a : List Char) {b : List Char}, (∀ c ∈ b, c ≠ '/') →
      (a ++ b).splitOn '/' = (a.splitOn '/').dropLast
        ++ [(a.splitOn '/').getLastD [] ++ b] := by
  intro a
  induction a with
  | nil =>
    intro b hb
    simp only [List.nil_append]
    have hsingle : b.splitOn '/' = [b] := by
      simp only [List.splitOn]
      exact List.splitOnP_eq_single _ _ (fun x hx => by simp [hb x hx])
    rw [hsingle]
    simp [List.splitOn]
  | cons c a' ih =>
    intro b hb
    by_cases hc : c = '/'
    · subst hc
      rw [List.cons_append, splitOn_cons_sep, splitOn_cons_sep, ih hb]
      rw [List.dropLast_cons_of_ne_nil (splitOn_ne_nil a'), List.getLastD_cons]
      rfl
    · rw [List.cons_append, splitOn_cons_ne hc, splitOn_cons_ne hc, ih hb]
      cases hS : a'.splitOn '/' with
      | nil => exact absurd hS (splitOn_ne_nil a')
      | cons h t =>
        cases t with
        | nil => simp [List.modifyHead_cons]
        | cons t0 t1 =>
          rw [List.dropLast_cons_of_ne_nil (List.cons_ne_nil t0 t1)]
          simp only [List.modifyHead_cons]
          rw [List.dropLast_cons_of_ne_nil (List.cons_ne_nil t0 t1)]
          simp only [List.getLastD_cons, List.cons_append]
          simp [List.modifyHead_cons]

theorem reassemble_append_ext {q extension : List Char}
    (hext : ∀ c ∈ extension, ¬ c = '.' ∧ ¬ c = '/')
    (hseg : ∀ seg ∈ (q ++ '.' :: extension).splitOn '/',
      ¬ seg = [] ∧ ¬ seg.head? = some '.') :
    reassemble (q ++ '.' :: extension) = q := by
  have hbne : ∀ c ∈ ('.' :: extension), c ≠ '/' := by
    intro c hc
    rcases List.mem_cons.mp hc with rfl | hc2
    · decide
    · exact (hext c hc2).2
  have hpath : pathOf (q ++ '.' :: extension) = pathOf q := pathOf_append hbne
  have hcb : completeBaseName (q ++ '.' :: extension) = fileNameOf q :=
    completeBaseName_append_ext (fun c hc => (hext c hc).1) (fun c hc => (hext c hc).2)
  unfold reassemble
  rw [hpath, hcb]
  by_cases hsl : ∀ c ∈ q, c ≠ '/'
  · have hq : pathOf q = ['.'] := by
      simp only [pathOf]
      rw [List.dropWhile_eq_nil_iff.mpr
        (fun x hx => by simp [hsl x (List.mem_reverse.mp hx)])]
      simp
    rw [hq, if_neg (by simp)]
    simpa using fileNameOf_no_slash hsl
  · have hslash : '/' ∈ q := by
      by_contra hno
      exact hsl (fun c hc hceq => hno (hceq ▸ hc))
    set rest := q.reverse.dropWhile (fun c => ¬ c = '/') with hrest
    have hrestne : rest ≠ [] := by
      intro h0
      have hall := List.dropWhile_eq_nil_iff.mp h0
      have h2 := hall '/' (List.mem_reverse.mpr hslash)
      simp at h2
    obtain ⟨rh, rt, hrscons⟩ := List.exists_cons_of_ne_nil hrestne
    have hrh : rh = '/' := by
      have hh : (q.reverse.dropWhile (fun c => ¬ c = '/')).head? = some rh := by
        rw [← hrest, hrscons]
        rfl
      have := dropWhile_head?_false hh
      simpa using this
    subst hrh
    set dirs := (rest.drop 1).reverse with hdirs
    have hid : q = dirs ++ '/' :: fileNameOf q := by
      have h1 : q.reverse.takeWhile (fun c => ¬ c = '/') ++ rest = q.reverse := by
        rw [hrest]
        exact List.takeWhile_append_dropWhile _ _
      have h2 : q = rest.reverse ++ fileNameOf q := by
        conv_lhs => rw [← List.reverse_reverse q, ← h1]
        rw [List.reverse_append]
        rfl
      have hd2 : dirs = rt.reverse := by
        rw [hdirs, hrscons]
        rfl
      rw [hrscons] at h2
      rw [hd2]
      simpa [List.append_assoc] using h2
    have hpq : pathOf q = if dirs = [] then ['/'] else dirs := by
      simp only [pathOf]
      rw [← hrest, if_neg hrestne]
    by_cases hd : dirs = []
    · exfalso
      rw [hd] at hid
      simp only [List.nil_append] at hid
      have hqp : q ++ '.' :: extension
          = '/' :: (fileNameOf q ++ '.' :: extension) := by
        conv_lhs => rw [hid]
        simp
      have hp : (q ++ '.' :: extension).splitOn '/'
          = [] :: ((fileNameOf q ++ '.' :: extension).splitOn '/') := by
        rw [hqp, splitOn_cons_sep]
      exact (hseg [] (by rw [hp]; exact List.mem_cons_self _ _)).1 rfl
    · have hdot : ¬ dirs = ['.'] := by
        intro h0
        rw [h0] at hid
        have hqp : q ++ '.' :: extension
            = '.' :: '/' :: (fileNameOf q ++ '.' :: extension) := by
          conv_lhs => rw [hid]
          simp
        have hp : (q ++ '.' :: extension).splitOn '/'
            = ['.'] :: ((fileNameOf q ++ '.' :: extension).splitOn '/') := by
          rw [hqp, splitOn_cons_ne (by decide), splitOn_cons_sep, List.modifyHead_cons]
        exact (hseg ['.'] (by rw [hp]; exact List.mem_cons_self _ _)).2 rfl
      rw [hpq, if_neg hd, if_pos ⟨hd, hdot⟩]
      conv_rhs => rw [hid]
      simp [List.append_assoc]

theorem perSegmentCleanup_fixed {q extension : List Char}
    (hq : ∀ c ∈ q, isWs c = false)
    (hext2 : ∀ c ∈ extension, ¬ c = '/')
    (hseg : ∀ seg ∈ (q ++ '.' :: extension).splitOn '/',
      ¬ seg = [] ∧ ¬ seg.head? = some '.') :
    perSegmentCleanup q = q := by
  have hbne : ∀ c ∈ ('.' :: extension), c ≠ '/' := by
    intro c hc
    rcases List.mem_cons.mp hc with rfl | hc2
    · decide
    · exact hext2 c hc2
  have hsplit := splitOn_append_no_sep q hbne
  have hfix : ∀ seg ∈ q.splitOn '/', cleanSegment seg = seg := by
    intro seg hmem
    have hhead : ¬ seg.head? = some '.' := by
      rcases mem_dropLast_or_getLastD hmem with h1 | h2
      · have hm2 : seg ∈ (q ++ '.' :: extension).splitOn '/' := by
          rw [hsplit]
          exact List.mem_append_left _ h1
        exact (hseg seg hm2).2
      · have hlmem : (q.splitOn '/').getLastD [] ++ '.' :: extension
            ∈ (q ++ '.' :: extension).splitOn '/' := by
          rw [hsplit]
          exact List.mem_append_right _ (List.mem_singleton_self _)
        have hL2 := (hseg _ hlmem).2
        rw [← h2] at hL2
        cases hshape : seg with
        | nil => simp
        | cons s0 st =>
          rw [hshape] at hL2
          simp only [List.cons_append, List.head?_cons] at hL2 ⊢
          exact hL2
    have hnws : ∀ c ∈ seg, isWs c = false := by
      intro c hc
      apply hq
      have hmem2 : seg ∈ q.splitOnP (fun c => c == '/') := by
        simpa [List.splitOn] using hmem
      exact splitOnP_pieces_mem q seg hmem2 c hc
    unfold cleanSegment stripOneInvalid
    have hfind : kInvalidPrefixCharacters.find? (fun c => seg.head? = some c) = none := by
      rw [show kInvalidPrefixCharacters = ['.'] from rfl]
      simp [List.find?, hhead]
    rw [hfind]
    exact trim_of_no_ws hnws
  unfold perSegmentCleanup
  rw [map_eq_self_of hfix]
  exact List.intercalate_splitOn q '/'

theorem sanitizeStages_plain (env : Env) (cfg : RenderCfg) (p : List Char)
    (hrp : cfg.remove_problematic = false) (hrnf : cfg.remove_non_fat = false)
    (hrna : cfg.remove_non_ascii = false) :
    sanitizeStages env cfg p = simplified p := by
  simp only [sanitizeStages, hrp, hrnf, hrna]
  simp

theorem determineExtn_override (song : Song) {extension : List Char} (s5 : List Char)
    (hextne : ¬ extension = []) :
    determineExtn song extension s5 = extension := by
  simp only [determineExtn]
  rw [if_neg hextne]

theorem sanitize_shape (env : Env) (cfg : RenderCfg) (song : Song)
    (extension fp : List Char)
    (hrp : cfg.remove_problematic = false) (hrnf : cfg.remove_non_fat = false)
    (hrna : cfg.remove_non_ascii = false) (hrs : cfg.replace_spaces = true)
    (hextne : ¬ extension = []) :
    sanitize env cfg song extension fp
      = (perSegmentCleanup (reassemble (simplified fp))).map
          (fun c => if isWs c then '_' else c) ++ '.' :: extension := by
  simp only [sanitize, sanitizeStages_plain env cfg fp hrp hrnf hrna,
    determineExtn_override song (simplified fp) hextne, hrs]
  rw [if_pos hextne]
  simp

theorem sanitize_fixed (env : Env) (cfg : RenderCfg) (song : Song)
    {extension q : List Char}
    (hrp : cfg.remove_problematic = false) (hrnf : cfg.remove_non_fat = false)
    (hrna : cfg.remove_non_ascii = false) (hrs : cfg.replace_spaces = true)
    (hextne : ¬ extension = [])
    (hext : ∀ c ∈ extension, ¬ c = '.' ∧ ¬ c = '/' ∧ isWs c = false)
    (hq : ∀ c ∈ q, isWs c = false)
    (hseg : ∀ seg ∈ (q ++ '.' :: extension).splitOn '/',
      ¬ seg = [] ∧ ¬ seg.head? = some '.') :
    sanitize env cfg song extension (q ++ '.' :: extension)
      = q ++ '.' :: extension := by
  have hnwsp : ∀ c ∈ q ++ '.' :: extension, isWs c = false := by
    intro c hc
    rcases List.mem_append.mp hc with h1 | h2
    · exact hq c h1
    · rcases List.mem_cons.mp h2 with rfl | h3
      · decide
      · exact (hext c h3).2.2
  have hsimp : simplified (q ++ '.' :: extension) = q ++ '.' :: extension :=
    simplified_of_no_ws hnwsp
  have hre : reassemble (q ++ '.' :: extension) = q :=
    reassemble_append_ext (fun c hc => ⟨(hext c hc).1, (hext c hc).2.1⟩) hseg
  have hps : perSegmentCleanup q = q :=
    perSegmentCleanup_fixed hq (fun c hc => (hext c hc).2.1) hseg
  have hmap := map_wsrepl_id hq
  simp only [sanitize, sanitizeStages_plain env cfg _ hrp hrnf hrna,
    determineExtn_override song _ hextne, hrs, hsimp, hre, hps, hmap]
  rw [if_pos hextne]
  simp [hmap]

/-- C7 counterexample: the sanitizer is not idempotent.  With the
default configuration, sanitizing `..d/file` (extension `mp3`) yields
`.d/file.mp3`; sanitizing that output again strips another leading dot
and yields `d/file.mp3`. -/
theorem c7_idempotence_counterexample :
    sanitize envStd cfgStd songEmpty ("mp3".toList)
        (sanitize envStd cfgStd songEmpty ("mp3".toList) ("..d/file".toList))
      ≠ sanitize envStd cfgStd songEmpty ("mp3".toList) ("..d/file".toList) ∧
    sanitize envStd cfgStd songEmpty ("mp3".toList) ("..d/file".toList)
      = ".d/file.mp3".toList ∧
    sanitize envStd cfgStd songEmpty ("mp3".toList) (".d/file.mp3".toList)
      = "d/file.mp3".toList := by
  decide

/-- C7 amended: for configurations with the character-removal switches
off, a nonempty extension containing no dot, slash or whitespace, and a
first-pass result none of whose `/`-separated segments is empty or
begins with an invalid-prefix character (the counterexample shows a
leading-dot segment breaks this), applying the pipeline a second time
with the same arguments returns the once-sanitized path unchanged. -/
theorem c7_idempotence_amended (env : Env) (cfg : RenderCfg) (song : Song)
    (extension fp : List Char)
    (hrp : cfg.remove_problematic = false) (hrnf : cfg.remove_non_fat = false)
    (hrna : cfg.remove_non_ascii = false) (hrs : cfg.replace_spaces = true)
    (hextne : ¬ extension = [])
    (hext : ∀ c ∈ extension, ¬ c = '.' ∧ ¬ c = '/' ∧ isWs c = false)
    (hseg : ∀ seg ∈ (sanitize env cfg song extension fp).splitOn '/',
      ¬ seg = [] ∧ ¬ seg.head? = some '.') :
    sanitize env cfg song extension (sanitize env cfg song extension fp)
      = sanitize env cfg song extension fp := by
  have hshape := sanitize_shape env cfg song extension fp hrp hrnf hrna hrs hextne
  rw [hshape] at hseg ⊢
  exact sanitize_fixed env cfg song hrp hrnf hrna hrs hextne hext
    (noWs_map_replace _) hseg

/-- Witness for C7 amended: the once-sanitized path `d/file.mp3` is a
fixed point of a second application. -/
theorem c7_idempotence_amended_witness :
    sanitize envStd cfgStd songEmpty ("mp3".toList)
        (sanitize envStd cfgStd songEmpty ("mp3".toList) ("d/file".toList))
      = sanitize envStd cfgStd songEmpty ("mp3".toList) ("d/file".toList) :=
  c7_idempotence_amended envStd cfgStd songEmpty ("mp3".toList) ("d/file".toList)
    (by decide) (by decide) (by decide) (by decide) (by decide) (by decide) (by decide)

end Organize
